import Mathlib

/-!
Verification of the go_1brc record-processing program (src/main.go).

The program reads lines of the form key;value, parses the value with a
trimmed copy of the Go standard library decimal fast path (readFloat and
atof64exact), and aggregates per-key minimum, maximum and mean of the
readings, finally sorting the per-key results by key.

Modelling conventions:
* Go byte strings are lists of natural numbers (byte values).
* The float64 values flowing through atof64exact and the aggregator are
  modelled as exact rationals.  Inside the exact fast path the mantissa is
  below 2^52 and the tabulated powers of ten up to 1e22 are exactly
  representable in binary64, so the rational model agrees with the float64
  computation on every branch condition and on every value produced by the
  succeeding cases; bit-level rounding claims are outside this model.
* The uint64 mantissa cannot overflow: at most 19 digits are absorbed, so
  the mantissa stays below 10^19 < 2^64, and plain Nat is used.
-/

namespace Go1brc

/-- Lexer state of the digit loop of readFloat (src/main.go lines 128-164):
the Go local variables mantissa, nd, ndMant, dp, sawdot, sawdigits, trunc. -/
structure LexState where
  mantissa : Nat
  nd : Nat
  ndMant : Nat
  dp : Int
  sawdot : Bool
  sawdigits : Bool
  trunc : Bool
deriving DecidableEq, Repr

/-- Digit-scanning loop of readFloat (src/main.go lines 136-164).  One byte is
consumed per step; scanning stops at a second decimal point (byte 46) or at
any byte that is neither a digit (bytes 48-57) nor the first point, and the
state at the break is returned.  The index i is not modelled because the
caller discards it. -/
def readFloatLoop : LexState → List Nat → LexState
  | st, [] => st
  | st, c :: rest =>
    if c = 46 then
      if st.sawdot then st
      else readFloatLoop { st with sawdot := true, dp := (st.nd : Int) } rest
    else if 48 ≤ c ∧ c ≤ 57 then
      if c = 48 ∧ st.nd = 0 then
        readFloatLoop { st with sawdigits := true, dp := st.dp - 1 } rest
      else if st.ndMant < 19 then
        readFloatLoop
          { st with
            sawdigits := true
            nd := st.nd + 1
            mantissa := st.mantissa * 10 + (c - 48)
            ndMant := st.ndMant + 1 } rest
      else if c ≠ 48 then
        readFloatLoop { st with sawdigits := true, nd := st.nd + 1, trunc := true } rest
      else
        readFloatLoop { st with sawdigits := true, nd := st.nd + 1 } rest
    else st

/-- Named return values of readFloat (src/main.go line 115).  The hex flag is
always false in this trimmed copy and the index i is unused by the caller;
both are omitted. -/
structure ReadFloatResult where
  mantissa : Nat
  exp : Int
  neg : Bool
  trunc : Bool
  ok : Bool
deriving DecidableEq, Repr

/-- Trimmed stdlib decimal lexer readFloat (src/main.go lines 115-178):
optional sign (bytes 43 and 45), digit loop, then dp defaults to nd without a
point, exp is dp - ndMant for a nonzero mantissa, and ok demands sawdigits. -/
def readFloat (s : List Nat) : ReadFloatResult :=
  match s with
  | [] => ⟨0, 0, false, false, false⟩
  | c :: rest =>
    let neg := c == 45
    let body := if c = 43 ∨ c = 45 then rest else s
    let st := readFloatLoop ⟨0, 0, 0, 0, false, false, false⟩ body
    if st.sawdigits = false then ⟨st.mantissa, 0, neg, st.trunc, false⟩
    else
      let dp := if st.sawdot then st.dp else (st.nd : Int)
      let exp : Int := if st.mantissa ≠ 0 then dp - (st.ndMant : Int) else 0
      ⟨st.mantissa, exp, neg, st.trunc, true⟩

/-- Mantissa width test of atof64exact (src/main.go line 194): the shift count
is float64info.mantbits = 52 (line 186), and the test passes when the shifted
mantissa is zero. -/
def mantissaFits (mantissa : Nat) : Bool := mantissa >>> 52 == 0

/-- Exact fast path atof64exact (src/main.go lines 193-223).  float64
arithmetic is modelled by exact rational arithmetic; the table float64pow10
(lines 187-191) holds the exact float64 values of 10^k for k up to 22, so
indexing it becomes rational exponentiation.  Each failing return yields the
current f together with ok = false, exactly as the Go named returns do. -/
def atof64exact (mantissa : Nat) (exp : Int) (neg : Bool) : ℚ × Bool :=
  if mantissaFits mantissa = false then (0, false)
  else
    let f : ℚ := if neg then -(mantissa : ℚ) else (mantissa : ℚ)
    if exp = 0 then (f, true)
    else if 0 < exp ∧ exp ≤ 15 + 22 then
      let f2 := if 22 < exp then f * (10 : ℚ) ^ (exp - 22).toNat else f
      let e : Int := if 22 < exp then 22 else exp
      if (10 : ℚ) ^ 15 < f2 ∨ f2 < -((10 : ℚ) ^ 15) then (f2, false)
      else (f2 * (10 : ℚ) ^ e.toNat, true)
    else if exp < 0 ∧ -22 ≤ exp then (f / (10 : ℚ) ^ (-exp).toNat, true)
    else (f, false)

/-- Composition used by processFile at src/main.go lines 63-64: readFloat
followed by atof64exact on its mantissa, exp and neg.  The Go caller
overwrites the ok returned by readFloat with the ok of atof64exact before
testing it, so only the second ok is observable here. -/
def parseDecimal (s : List Nat) : ℚ × Bool :=
  let r := readFloat s
  atof64exact r.mantissa r.exp r.neg

/-- StationResult record (src/main.go lines 21-27).  During accumulation the
mean field holds the running sum (processFile lines 70 and 79); finalization
replaces it by sum / count. -/
structure StationResult where
  station : List Nat
  min : ℚ
  max : ℚ
  mean : ℚ
  readings : Nat
deriving DecidableEq, Repr

/-- Update of an existing accumulator (processFile lines 74-80): an if /
else-if pair for min and max, then the sum and the count. -/
def recordUpdate (v : StationResult) (reading : ℚ) : StationResult :=
  let v2 := if reading < v.min then { v with min := reading }
            else if v.max < reading then { v with max := reading }
            else v
  { v2 with mean := v2.mean + reading, readings := v2.readings + 1 }

/-- Per-pair step of the aggregation loop (processFile lines 68-80): an absent
key is inserted with min = max = sum = reading and count 1, a present key is
updated in place.  The Go map is modelled as an association list keyed by the
station bytes. -/
def record : List StationResult → List Nat → ℚ → List StationResult
  | [], station, reading => [⟨station, reading, reading, reading, 1⟩]
  | v :: rest, station, reading =>
    if v.station = station then recordUpdate v reading :: rest
    else v :: record rest station reading

/-- Aggregation of a whole sequence of (station, reading) pairs through
record, starting from the empty map (processFile line 50). -/
def processRecords (pairs : List (List Nat × ℚ)) : List StationResult :=
  pairs.foldl (fun st p => record st p.1 p.2) []

/-- Readings belonging to one key, in input order. -/
def readingsOf (k : List Nat) (pairs : List (List Nat × ℚ)) : List ℚ :=
  (pairs.filter (fun p => p.1 == k)).map Prod.snd

/-- Position of the first semicolon (byte 59) in a token, the model of
slices.Index at processFile line 56; none models the Go result -1. -/
def sliceIndex (b : Nat) : List Nat → Option Nat
  | [] => none
  | c :: rest =>
    if c = b then some 0
    else match sliceIndex b rest with
      | none => none
      | some i => some (i + 1)

/-- Body of the scanner loop for one line (processFile lines 54-81): a line
without a semicolon is skipped, a failing atof64exact aborts the whole run
(log.Fatalln at line 66, modelled as none), and otherwise the reading is
recorded under the station taken from the bytes before the semicolon. -/
def processLine (stations : List StationResult) (token : List Nat) :
    Option (List StationResult) :=
  match sliceIndex 59 token with
  | none => some stations
  | some i =>
    let station := token.take i
    let value := token.drop (i + 1)
    let r := readFloat value
    let p := atof64exact r.mantissa r.exp r.neg
    if p.2 then some (record stations station p.1) else none

/-- Scanner loop over all lines of the input (processFile lines 54-81). -/
def processLines : List StationResult → List (List Nat) → Option (List StationResult)
  | stations, [] => some stations
  | stations, token :: rest =>
    match processLine stations token with
    | none => none
    | some stations2 => processLines stations2 rest

/-- Finalization of one accumulator (processFile lines 86-92): min and max are
kept, mean becomes sum / count, and the Readings field of the result is 0. -/
def finalizeEntry (r : StationResult) : StationResult :=
  ⟨r.station, r.min, r.max, r.mean / (r.readings : ℚ), 0⟩

/-- Byte-wise three-way comparison: the semantics of strings.Compare used by
the sort at processFile lines 97-99. -/
def bytesCompare : List Nat → List Nat → Ordering
  | [], [] => Ordering.eq
  | [], _ :: _ => Ordering.lt
  | _ :: _, [] => Ordering.gt
  | a :: as, b :: bs =>
    if a < b then Ordering.lt
    else if b < a then Ordering.gt
    else bytesCompare as bs

/-- Non-decreasing byte-wise order: strings.Compare does not answer gt. -/
def bytesLe (a b : List Nat) : Bool :=
  match bytesCompare a b with
  | Ordering.gt => false
  | _ => true

/-- Order on finalized entries used by slices.SortFunc with strings.Compare on
the Station fields (processFile lines 97-99). -/
def stationLe (a b : StationResult) : Prop := bytesLe a.station b.station = true

instance : DecidableRel stationLe := fun a b =>
  Bool.decEq (bytesLe a.station b.station) true

/-- Finalization phase (processFile lines 85-99): every accumulator is mapped
to its result and the results are sorted by station bytes ascending.
slices.SortFunc is modelled by insertion sort, a sorted permutation under the
same comparator; the keys are distinct, so the sorted sequence is unique. -/
def finalize (stations : List StationResult) : List StationResult :=
  List.insertionSort stationLe (stations.map finalizeEntry)

/-- Lookup of the first entry with the given station, the reading side of the
association-list model of the Go map stations. -/
def lookupStation : List StationResult → List Nat → Option StationResult
  | [], _ => none
  | v :: rest, k => if v.station = k then some v else lookupStation rest k

/-- Effect of one recorded reading on the accumulator of a single key:
insertion on the first sighting, recordUpdate afterwards.  This is what
record does to the looked-up entry of that key. -/
def aggStep (k : List Nat) (o : Option StationResult) (r : ℚ) : Option StationResult :=
  match o with
  | none => some ⟨k, r, r, r, 1⟩
  | some v => some (recordUpdate v r)

/-! Helper lemmas shared by the claim theorems. -/

/-- Characterization of the width test of atof64exact: the shift by 52 is
zero exactly for mantissas below 2^52. -/
lemma mantissaFits_true_iff (m : Nat) : mantissaFits m = true ↔ m < 2 ^ 52 := by
  have hpos : 0 < 2 ^ 52 := Nat.pos_pow_of_pos 52 (by omega)
  simp only [mantissaFits, Nat.shiftRight_eq_div_pow, beq_iff_eq]
  omega

/-- Tokens without the searched byte have no index. -/
lemma sliceIndex_eq_none_of_not_mem (b : Nat) (l : List Nat) (h : b ∉ l) :
    sliceIndex b l = none := by
  induction l with
  | nil => rfl
  | cons c rest ih =>
    have hcb : c ≠ b := by
      intro hc
      exact h (hc ▸ List.mem_cons_self c rest)
    have hrest : b ∉ rest := fun hm => h (List.mem_cons_of_mem c hm)
    simp [sliceIndex, hcb, ih hrest]

/-- On a state respecting the min ≤ max invariant, the else-if pair of
processFile lines 74-78 computes exactly the pointwise minimum and maximum,
and the sum and count advance. -/
lemma recordUpdate_char (v : StationResult) (r : ℚ) (h : v.min ≤ v.max) :
    recordUpdate v r =
      ⟨v.station, min v.min r, max v.max r, v.mean + r, v.readings + 1⟩ := by
  unfold recordUpdate
  by_cases h1 : r < v.min
  · have hmin : min v.min r = r := min_eq_right h1.le
    have hmax : max v.max r = v.max := max_eq_left (h1.le.trans h)
    simp [h1, hmin, hmax]
  · push_neg at h1
    by_cases h2 : v.max < r
    · have hmin : min v.min r = v.min := min_eq_left h1
      have hmax : max v.max r = r := max_eq_right h2.le
      simp [not_lt.mpr h1, h2, hmin, hmax]
    · push_neg at h2
      have hmin : min v.min r = v.min := min_eq_left h1
      have hmax : max v.max r = v.max := max_eq_left h2
      simp [not_lt.mpr h1, not_lt.mpr h2, hmin, hmax]

/-- recordUpdate never changes the station. -/
lemma recordUpdate_station (v : StationResult) (r : ℚ) :
    (recordUpdate v r).station = v.station := by
  unfold recordUpdate
  split_ifs <;> rfl

/-- Running minimum is a lower bound for its start. -/
lemma foldl_min_le_start (rs : List ℚ) (a : ℚ) : rs.foldl min a ≤ a := by
  induction rs generalizing a with
  | nil => exact le_refl a
  | cons r rest ih => exact (ih (min a r)).trans (min_le_left a r)

/-- Running minimum is a lower bound for every element. -/
lemma foldl_min_le_mem (rs : List ℚ) (a : ℚ) : ∀ x ∈ rs, rs.foldl min a ≤ x := by
  induction rs generalizing a with
  | nil => intro x hx; cases hx
  | cons r rest ih =>
    intro x hx
    rcases List.mem_cons.mp hx with hx | hx
    · exact hx ▸ (foldl_min_le_start rest (min a r)).trans (min_le_right a r)
    · exact ih (min a r) x hx

/-- Running minimum is the start or one of the elements. -/
lemma foldl_min_mem (rs : List ℚ) (a : ℚ) :
    rs.foldl min a = a ∨ rs.foldl min a ∈ rs := by
  induction rs generalizing a with
  | nil => exact Or.inl rfl
  | cons r rest ih =>
    rcases ih (min a r) with hl | hl
    · rcases min_choice a r with hc | hc
      · exact Or.inl (by rw [List.foldl_cons, hl, hc])
      · exact Or.inr (by rw [List.foldl_cons, hl, hc]; exact List.mem_cons_self r rest)
    · exact Or.inr (List.mem_cons_of_mem r hl)

/-- Running maximum is an upper bound for its start. -/
lemma le_foldl_max_start (rs : List ℚ) (a : ℚ) : a ≤ rs.foldl max a := by
  induction rs generalizing a with
  | nil => exact le_refl a
  | cons r rest ih => exact (le_max_left a r).trans (ih (max a r))

/-- Running maximum is an upper bound for every element. -/
lemma le_foldl_max_mem (rs : List ℚ) (a : ℚ) : ∀ x ∈ rs, x ≤ rs.foldl max a := by
  induction rs generalizing a with
  | nil => intro x hx; cases hx
  | cons r rest ih =>
    intro x hx
    rcases List.mem_cons.mp hx with hx | hx
    · exact hx ▸ (le_max_right a r).trans (le_foldl_max_start rest (max a r))
    · exact ih (max a r) x hx

/-- Running maximum is the start or one of the elements. -/
lemma foldl_max_mem (rs : List ℚ) (a : ℚ) :
    rs.foldl max a = a ∨ rs.foldl max a ∈ rs := by
  induction rs generalizing a with
  | nil => exact Or.inl rfl
  | cons r rest ih =>
    rcases ih (max a r) with hl | hl
    · rcases max_choice a r with hc | hc
      · exact Or.inl (by rw [List.foldl_cons, hl, hc])
      · exact Or.inr (by rw [List.foldl_cons, hl, hc]; exact List.mem_cons_self r rest)
    · exact Or.inr (List.mem_cons_of_mem r hl)

/-- Looking up the recorded key sees exactly the aggStep of the previous
lookup: a fresh entry on the first sighting and recordUpdate afterwards. -/
lemma lookup_record_self (st : List StationResult) (k : List Nat) (r : ℚ) :
    lookupStation (record st k r) k = aggStep k (lookupStation st k) r := by
  induction st with
  | nil => simp [record, lookupStation, aggStep]
  | cons v rest ih =>
    by_cases h : v.station = k
    · simp [record, h, lookupStation, aggStep, recordUpdate_station]
    · simp [record, h, lookupStation, ih]

/-- Recording one key leaves the lookup of every other key unchanged. -/
lemma lookup_record_other (st : List StationResult) (k k2 : List Nat) (r : ℚ)
    (h : k2 ≠ k) : lookupStation (record st k r) k2 = lookupStation st k2 := by
  have hk : ¬ k = k2 := fun hc => h hc.symm
  induction st with
  | nil => simp [record, lookupStation, hk]
  | cons v rest ih =>
    by_cases hv : v.station = k
    · simp [record, hv, lookupStation, recordUpdate_station, hk]
    · by_cases hv2 : v.station = k2
      · simp [record, hv, lookupStation, hv2, h]
      · simp [record, hv, lookupStation, hv2, ih]

/-- Successful lookups return members of the list. -/
lemma lookup_mem (st : List StationResult) (k : List Nat) (v : StationResult)
    (h : lookupStation st k = some v) : v ∈ st := by
  induction st with
  | nil => cases h
  | cons w rest ih =>
    by_cases hw : w.station = k
    · simp [lookupStation, hw] at h
      exact h ▸ List.mem_cons_self w rest
    · simp [lookupStation, hw] at h
      exact List.mem_cons_of_mem w (ih h)

/-- Readings of one key distribute over a cons of the pair list. -/
lemma readingsOf_cons (k : List Nat) (p : List Nat × ℚ) (ps : List (List Nat × ℚ)) :
    readingsOf k (p :: ps) =
      if p.1 = k then p.2 :: readingsOf k ps else readingsOf k ps := by
  by_cases h : p.1 = k
  · simp [readingsOf, List.filter_cons, h]
  · simp [readingsOf, List.filter_cons, h]

/-- Aggregating a pair list acts on the lookup of each key as the fold of
aggStep over exactly the readings of that key, in order. -/
lemma lookup_foldl_record (pairs : List (List Nat × ℚ)) (st : List StationResult)
    (k : List Nat) :
    lookupStation (pairs.foldl (fun s p => record s p.1 p.2) st) k =
      (readingsOf k pairs).foldl (aggStep k) (lookupStation st k) := by
  induction pairs generalizing st with
  | nil => simp [readingsOf]
  | cons p ps ih =>
    rw [List.foldl_cons, ih, readingsOf_cons]
    by_cases hp : p.1 = k
    · rw [if_pos hp, List.foldl_cons, hp, lookup_record_self]
    · rw [if_neg hp, lookup_record_other st p.1 k p.2 (fun hc => hp hc.symm)]

/-- Folding aggStep from an existing accumulator is folding recordUpdate. -/
lemma foldl_aggStep_some (k : List Nat) (rs : List ℚ) (v : StationResult) :
    rs.foldl (aggStep k) (some v) = some (rs.foldl recordUpdate v) := by
  induction rs generalizing v with
  | nil => rfl
  | cons r rest ih => rw [List.foldl_cons, List.foldl_cons]; exact ih (recordUpdate v r)

/-- Fields of a fold of recordUpdate over a state respecting min ≤ max: the
station is kept, min and max are the running minimum and maximum, the sum and
the count advance by the folded readings, and the invariant is kept. -/
lemma foldl_recordUpdate_char (rs : List ℚ) (v : StationResult) (h : v.min ≤ v.max) :
    rs.foldl recordUpdate v =
      ⟨v.station, rs.foldl min v.min, rs.foldl max v.max,
        v.mean + rs.sum, v.readings + rs.length⟩ := by
  induction rs generalizing v with
  | nil =>
    simp only [List.foldl_nil, List.sum_nil, add_zero, List.length_nil]
  | cons r rest ih =>
    rw [List.foldl_cons, recordUpdate_char v r h]
    have h2 : min v.min r ≤ max v.max r :=
      (min_le_left v.min r).trans (h.trans (le_max_left v.max r))
    rw [ih ⟨v.station, min v.min r, max v.max r, v.mean + r, v.readings + 1⟩ h2]
    simp only [List.foldl_cons, List.sum_cons, List.length_cons,
      StationResult.mk.injEq, eq_self_iff_true, true_and]
    exact ⟨by ring, by omega⟩

/-- Scanning stops immediately at a byte that is neither a digit nor a
decimal point, whatever follows. -/
lemma readFloatLoop_stop_garbage (st : LexState) (c : Nat) (rest : List Nat)
    (h46 : ¬ c = 46) (hdig : ¬ (48 ≤ c ∧ c ≤ 57)) :
    readFloatLoop st (c :: rest) = st := by
  simp only [readFloatLoop, if_neg h46, if_neg hdig]

/-- Scanning stops immediately at a second decimal point. -/
lemma readFloatLoop_stop_dot (st : LexState) (rest : List Nat)
    (h : st.sawdot = true) : readFloatLoop st (46 :: rest) = st := by
  simp [readFloatLoop, h]

/-- Digits never break the loop, so scanning a digit run followed by anything
first scans the run and then continues on the remainder. -/
lemma readFloatLoop_append_digits (d : List Nat)
    (hd : ∀ b ∈ d, 48 ≤ b ∧ b ≤ 57) :
    ∀ (st : LexState) (g : List Nat),
      readFloatLoop st (d ++ g) = readFloatLoop (readFloatLoop st d) g := by
  induction d with
  | nil => intro st g; rfl
  | cons c d2 ih =>
    intro st g
    have hc := hd c (List.mem_cons_self c d2)
    have hc46 : ¬ c = 46 := by omega
    have hd2 : ∀ b ∈ d2, 48 ≤ b ∧ b ≤ 57 := fun b hb => hd b (List.mem_cons_of_mem c hb)
    simp only [List.cons_append, readFloatLoop, if_neg hc46, if_pos hc]
    split_ifs <;> exact ih hd2 _ _

/-- The sawdigits flag is never cleared by further scanning. -/
lemma readFloatLoop_sawdigits_mono (s : List Nat) : ∀ st : LexState,
    st.sawdigits = true → (readFloatLoop st s).sawdigits = true := by
  induction s with
  | nil => intro st h; exact h
  | cons c rest ih =>
    intro st h
    simp only [readFloatLoop]
    split_ifs <;> first | exact h | exact ih _ (by simp [h])

/-- Scanning a list that starts with a digit sets sawdigits. -/
lemma readFloatLoop_sawdigits_of_digit (st : LexState) (c : Nat) (d : List Nat)
    (hc : 48 ≤ c ∧ c ≤ 57) :
    (readFloatLoop st (c :: d)).sawdigits = true := by
  have hc46 : ¬ c = 46 := by omega
  simp only [readFloatLoop, if_neg hc46, if_pos hc]
  split_ifs <;> exact readFloatLoop_sawdigits_mono d _ rfl

/-- Swapping the arguments of bytesCompare swaps the answer. -/
lemma bytesCompare_swap : ∀ a b : List Nat, (bytesCompare a b).swap = bytesCompare b a
  | [], [] => rfl
  | [], _ :: _ => rfl
  | _ :: _, [] => rfl
  | a :: as, b :: bs => by
    simp only [bytesCompare]
    rcases Nat.lt_trichotomy a b with h | h | h
    · simp only [if_pos h, if_neg (by omega : ¬ b < a)]
      rfl
    · subst h
      simp only [if_neg (lt_irrefl a)]
      exact bytesCompare_swap as bs
    · simp only [if_neg (by omega : ¬ a < b), if_pos h]
      rfl

/-- bytesCompare answers eq exactly on equal byte lists. -/
lemma bytesCompare_eq_iff : ∀ a b : List Nat, bytesCompare a b = Ordering.eq ↔ a = b
  | [], [] => by simp [bytesCompare]
  | [], _ :: _ => by simp [bytesCompare]
  | _ :: _, [] => by simp [bytesCompare]
  | a :: as, b :: bs => by
    simp only [bytesCompare, List.cons.injEq]
    rcases Nat.lt_trichotomy a b with h | h | h
    · rw [if_pos h]
      constructor
      · intro hc; cases hc
      · rintro ⟨h1, h2⟩; exact absurd h1 (by omega)
    · rw [if_neg (by omega : ¬ a < b), if_neg (by omega : ¬ b < a)]
      rw [bytesCompare_eq_iff as bs]
      constructor
      · intro hc; exact ⟨h, hc⟩
      · intro hc; exact hc.2
    · rw [if_neg (by omega : ¬ a < b), if_pos h]
      constructor
      · intro hc; cases hc
      · rintro ⟨h1, h2⟩; exact absurd h1 (by omega)

/-- Strict byte-wise order is transitive. -/
lemma bytesCompare_lt_trans : ∀ a b c : List Nat,
    bytesCompare a b = Ordering.lt → bytesCompare b c = Ordering.lt →
    bytesCompare a c = Ordering.lt := by
  intro a
  induction a with
  | nil =>
    intro b c h1 h2
    cases c with
    | nil =>
      exfalso
      cases b with
      | nil => simp [bytesCompare] at h2
      | cons x xs => simp [bytesCompare] at h2
    | cons x xs => simp [bytesCompare]
  | cons x xs ih =>
    intro b c h1 h2
    cases b with
    | nil => simp [bytesCompare] at h1
    | cons y ys =>
      cases c with
      | nil => simp [bytesCompare] at h2
      | cons z zs =>
        simp only [bytesCompare] at h1 h2 ⊢
        by_cases hxy : x < y
        · by_cases hyz : y < z
          · rw [if_pos (by omega : x < z)]
          · by_cases hzy : z < y
            · rw [if_neg hyz, if_pos hzy] at h2; cases h2
            · rw [if_pos (by omega : x < z)]
        · by_cases hyx : y < x
          · rw [if_neg hxy, if_pos hyx] at h1; cases h1
          · rw [if_neg hxy, if_neg hyx] at h1
            by_cases hyz : y < z
            · rw [if_pos (by omega : x < z)]
            · by_cases hzy : z < y
              · rw [if_neg hyz, if_pos hzy] at h2; cases h2
              · rw [if_neg hyz, if_neg hzy] at h2
                rw [if_neg (by omega : ¬ x < z), if_neg (by omega : ¬ z < x)]
                exact ih ys zs h1 h2

/-- bytesLe is total. -/
lemma bytesLe_total (a b : List Nat) : bytesLe a b = true ∨ bytesLe b a = true := by
  cases h : bytesCompare a b with
  | lt => left; simp [bytesLe, h]
  | eq => left; simp [bytesLe, h]
  | gt =>
    right
    have h2 : bytesCompare b a = Ordering.lt := by
      rw [← bytesCompare_swap a b, h]
      rfl
    simp [bytesLe, h2]

/-- bytesLe is transitive. -/
lemma bytesLe_trans (a b c : List Nat) (h1 : bytesLe a b = true)
    (h2 : bytesLe b c = true) : bytesLe a c = true := by
  cases hab : bytesCompare a b with
  | gt => simp [bytesLe, hab] at h1
  | eq =>
    have hb : a = b := (bytesCompare_eq_iff a b).mp hab
    rw [hb]
    exact h2
  | lt =>
    cases hbc : bytesCompare b c with
    | gt => simp [bytesLe, hbc] at h2
    | eq =>
      have hb : b = c := (bytesCompare_eq_iff b c).mp hbc
      rw [← hb]
      simp [bytesLe, hab]
    | lt =>
      have := bytesCompare_lt_trans a b c hab hbc
      simp [bytesLe, this]

instance : IsTotal StationResult stationLe :=
  ⟨fun a b => bytesLe_total a.station b.station⟩

instance : IsTrans StationResult stationLe :=
  ⟨fun a b c => bytesLe_trans a.station b.station c.station⟩

/-! Claim theorems. -/

/-- C1: the spec demands that a value substring in which no digit was seen
fail the parse and abort the run before anything is recorded.  readFloat
does answer ok = false for the empty value, but processFile line 64
overwrites that ok with the ok of atof64exact, which is true for the
resulting mantissa 0 and exponent 0, so processing the line x; (station x,
empty value substring) does not abort and records the reading 0 under
station x. -/
theorem digitless_value_recorded_not_fatal :
    (readFloat []).ok = false ∧
    parseDecimal [] = (0, true) ∧
    processLine [] [120, 59] = some [⟨[120], 0, 0, 0, 1⟩] :=
  ⟨rfl, by decide, by decide⟩

/-- C2 counterexample: for the prior accumulator state (min 5, max 3, sum 0,
count 0) and reading 4, the else-if chain takes the min branch and never
reaches the max comparison, so the stored max stays 3 while maximum(3, 4)
is 4; the claim quantified over every prior state is therefore false. -/
theorem recordUpdate_not_independent_cex :
    ¬ ((recordUpdate ⟨[], 5, 3, 0, 0⟩ 4).min = min (5 : ℚ) 4 ∧
       (recordUpdate ⟨[], 5, 3, 0, 0⟩ 4).max = max (3 : ℚ) 4) := by
  intro h
  have h1 : (recordUpdate ⟨[], 5, 3, 0, 0⟩ 4).max = 3 := by decide
  have h2 : max (3 : ℚ) 4 = 4 := max_eq_right (by norm_num)
  rw [h1, h2] at h
  exact absurd h.2 (by norm_num)

/-- C2 amended: the min and max updates are an if / else-if pair, so on an
arbitrary prior state the claimed post-state can fail; for every prior state
respecting the accumulator invariant min ≤ max (true of every state the
program builds) and every reading, the updated entry stores exactly
minimum(min, reading) and maximum(max, reading), with sum + reading and
count + 1. -/
theorem recordUpdate_minmax_of_invariant (v : StationResult) (r : ℚ)
    (h : v.min ≤ v.max) :
    (recordUpdate v r).min = min v.min r ∧
    (recordUpdate v r).max = max v.max r ∧
    (recordUpdate v r).mean = v.mean + r ∧
    (recordUpdate v r).readings = v.readings + 1 := by
  rw [recordUpdate_char v r h]
  exact ⟨rfl, rfl, rfl, rfl⟩

/-- C2 witness: the amended statement at the state (min 3, max 5, sum 0,
count 2) and reading 6. -/
theorem recordUpdate_minmax_witness :
    (3 : ℚ) ≤ 5 ∧
    ((recordUpdate ⟨[], 3, 5, 0, 2⟩ 6).min = min (3 : ℚ) 6 ∧
     (recordUpdate ⟨[], 3, 5, 0, 2⟩ 6).max = max (5 : ℚ) 6 ∧
     (recordUpdate ⟨[], 3, 5, 0, 2⟩ 6).mean = 0 + 6 ∧
     (recordUpdate ⟨[], 3, 5, 0, 2⟩ 6).readings = 2 + 1) :=
  ⟨by norm_num, recordUpdate_minmax_of_invariant ⟨[], 3, 5, 0, 2⟩ 6 (by decide)⟩

/-- C3 counterexample: the mantissa 2^52 is below 2^53 and is nevertheless
rejected by the width check, which shifts by the 52 stored mantissa bits;
atof64exact fails on it even at exponent 0. -/
theorem mantissa_width_cex :
    mantissaFits (2 ^ 52) = false ∧ (2 : Nat) ^ 52 < 2 ^ 53 ∧
    atof64exact (2 ^ 52) 0 false = (0, false) := by
  refine ⟨by decide, by decide, ?_⟩
  norm_num [atof64exact, mantissaFits, Nat.shiftRight_eq_div_pow]

/-- C3 amended: the width check of the exact-reconstruction phase fails
exactly when the mantissa does not fit in the 52 explicitly stored mantissa
bits: every mantissa of at least 2^52 is rejected by it and no mantissa
below 2^52 is rejected by it. -/
theorem mantissaFits_false_iff (m : Nat) :
    mantissaFits m = false ↔ 2 ^ 52 ≤ m := by
  constructor
  · intro h
    by_contra hc
    push_neg at hc
    rw [(mantissaFits_true_iff m).mpr hc] at h
    cases h
  · intro h
    cases hb : mantissaFits m with
    | false => rfl
    | true => exact absurd ((mantissaFits_true_iff m).mp hb) (by omega)

/-- C3 witness: the amended characterization evaluated at 2^52 + 7. -/
theorem mantissaFits_false_iff_witness :
    mantissaFits (2 ^ 52 + 7) = false :=
  (mantissaFits_false_iff (2 ^ 52 + 7)).mpr (by norm_num)

/-- C6 counterexample: exponent 3 lies outside the ranges the claim
enumerates (zero, above 22, negative of magnitude at most 22), so the claim
makes atof64exact fail on it; the code instead succeeds, returning 5000 for
mantissa 5, exponent 3. -/
theorem atof64exact_small_pos_exp_cex :
    atof64exact 5 3 false = (5000, true) ∧
    ¬ ((3 : Int) = 0 ∨ 22 < (3 : Int) ∨ ((3 : Int) < 0 ∧ -22 ≤ (3 : Int))) := by
  refine ⟨?_, by decide⟩
  norm_num [atof64exact, mantissaFits, Nat.shiftRight_eq_div_pow, Int.toNat]

/-- C6 amended: for every mantissa passing the width check (below 2^52):
exponent 0 returns the signed mantissa; a positive exponent up to 37 fails
when the value rescaled by 10^(exponent - 22) (no rescaling below 23)
exceeds 10^15 in magnitude and otherwise returns the signed mantissa times
the exact power of ten 10^exponent; a negative exponent of magnitude at
most 22 returns the signed mantissa divided by 10^(-exponent); and every
exponent above 37 or below -22 returns ok = false. -/
theorem atof64exact_cases (m : Nat) (e : Int) (neg : Bool) (hm : m < 2 ^ 52) :
    (e = 0 →
      atof64exact m e neg = (if neg then -(m : ℚ) else (m : ℚ), true)) ∧
    (0 < e → e ≤ 37 →
      (if (10 : ℚ) ^ 15 <
          |(if neg then -(m : ℚ) else (m : ℚ)) * (10 : ℚ) ^ (e - 22).toNat|
        then (atof64exact m e neg).2 = false
        else atof64exact m e neg =
          ((if neg then -(m : ℚ) else (m : ℚ)) * (10 : ℚ) ^ e.toNat, true))) ∧
    (e < 0 → -22 ≤ e →
      atof64exact m e neg =
        ((if neg then -(m : ℚ) else (m : ℚ)) / (10 : ℚ) ^ (-e).toNat, true)) ∧
    ((37 < e ∨ e < -22) → (atof64exact m e neg).2 = false) := by
  have hfits : mantissaFits m = true := (mantissaFits_true_iff m).mpr hm
  refine ⟨?_, ?_, ?_, ?_⟩
  · intro h
    subst h
    simp [atof64exact, hfits]
  · intro h1 h2
    have hne : ¬ e = 0 := by omega
    have hrange : 0 < e ∧ e ≤ 15 + 22 := ⟨h1, by omega⟩
    have habs : ∀ x : ℚ, (10 : ℚ) ^ 15 < |x| ↔
        ((10 : ℚ) ^ 15 < x ∨ x < -((10 : ℚ) ^ 15)) := by
      intro x
      rw [lt_abs]
      constructor
      · rintro (h | h)
        · exact Or.inl h
        · exact Or.inr (by linarith)
      · rintro (h | h)
        · exact Or.inl h
        · exact Or.inr (by linarith)
    by_cases h22 : 22 < e
    · have ht : (e - 22).toNat + (22 : Int).toNat = e.toNat := by omega
      simp only [atof64exact, hfits, Bool.true_eq_false, if_false, if_neg hne,
        if_pos hrange, if_pos h22, habs]
      split_ifs <;>
        first
          | rfl
          | (rw [Prod.mk.injEq]; exact ⟨by rw [mul_assoc, ← pow_add, ht], rfl⟩)
    · have ht0 : (e - 22).toNat = 0 := by omega
      simp only [atof64exact, hfits, Bool.true_eq_false, if_false, if_neg hne,
        if_pos hrange, if_neg h22, ht0, pow_zero, mul_one, habs]
      split_ifs <;> rfl
  · intro h1 h2
    have hne : ¬ e = 0 := by omega
    have hnr : ¬ (0 < e ∧ e ≤ 15 + 22) := by omega
    simp only [atof64exact, hfits, Bool.true_eq_false, if_false, if_neg hne,
      if_neg hnr, if_pos (And.intro h1 h2)]
  · intro h
    have hne : ¬ e = 0 := by omega
    have hnn : ¬ (e < 0 ∧ -22 ≤ e) := by omega
    have hnr : ¬ (0 < e ∧ e ≤ 15 + 22) := by omega
    simp only [atof64exact, hfits, Bool.true_eq_false, if_false, if_neg hne,
      if_neg hnr, if_neg hnn]

/-- C6 witness: the amended statement at mantissa 5, exponent 0. -/
theorem atof64exact_cases_witness :
    (5 : Nat) < 2 ^ 52 ∧ atof64exact 5 0 false = ((5 : ℚ), true) :=
  ⟨by norm_num, (atof64exact_cases 5 0 false (by norm_num)).1 rfl⟩

/-- C8: a line without the semicolon delimiter is silently skipped: the
aggregation state is unchanged and the run does not abort. -/
theorem line_without_delimiter_skipped (stations : List StationResult)
    (token : List Nat) (h : 59 ∉ token) :
    processLine stations token = some stations := by
  unfold processLine
  rw [sliceIndex_eq_none_of_not_mem 59 token h]

/-- C8 witness: the skip behaviour on the delimiterless line NoDel. -/
theorem line_without_delimiter_skipped_witness :
    (59 : Nat) ∉ [78, 111, 68, 101, 108] ∧
    processLine [] [78, 111, 68, 101, 108] = some [] :=
  ⟨by decide,
    line_without_delimiter_skipped [] [78, 111, 68, 101, 108] (by decide)⟩

/-- C9: the spec examples: parseDecimal of the bytes of 0 gives (0, true),
of -3.50 gives (-3.5, true), and on 12.34.56 the second decimal point stops
the digit scan without failing the parse, so the result is exactly the
parse of the prefix 12.34, namely (12.34, true). -/
theorem parseDecimal_spec_examples :
    parseDecimal [48] = (0, true) ∧
    parseDecimal [45, 51, 46, 53, 48] = ((-3.5 : ℚ), true) ∧
    parseDecimal [49, 50, 46, 51, 52, 46, 53, 54] = ((12.34 : ℚ), true) ∧
    parseDecimal [49, 50, 46, 51, 52, 46, 53, 54] =
      parseDecimal [49, 50, 46, 51, 52] := by
  have h1 : readFloat [45, 51, 46, 53, 48] = ⟨350, -2, true, false, true⟩ := by
    decide
  have h2 : readFloat [49, 50, 46, 51, 52, 46, 53, 54] =
      ⟨1234, -2, false, false, true⟩ := by decide
  have h3 : readFloat [49, 50, 46, 51, 52] = ⟨1234, -2, false, false, true⟩ := by
    decide
  refine ⟨by decide, ?_, ?_, ?_⟩
  · simp only [parseDecimal, h1]
    norm_num [atof64exact, mantissaFits, Nat.shiftRight_eq_div_pow, Int.toNat]
  · simp only [parseDecimal, h2]
    norm_num [atof64exact, mantissaFits, Nat.shiftRight_eq_div_pow, Int.toNat]
  · simp only [parseDecimal, h2, h3]

/-- C10: the digit scan stops at the first byte that is neither an ASCII
digit nor the first decimal point, and when at least one digit precedes
that byte the parse succeeds on the numeric prefix, ignoring the trailing
bytes.  Concretely 12abc parses as (12, true) and the line k;12abc records
the reading 12 for station k instead of being rejected. -/
theorem garbage_tail_parses_numeric_head (d g : List Nat) (c : Nat)
    (hne : d ≠ []) (hd : ∀ b ∈ d, 48 ≤ b ∧ b ≤ 57)
    (hc1 : ¬ (48 ≤ c ∧ c ≤ 57)) (hc2 : ¬ c = 46) :
    readFloat (d ++ c :: g) = readFloat d ∧
    (readFloat d).ok = true ∧
    parseDecimal (d ++ c :: g) = parseDecimal d ∧
    parseDecimal [49, 50, 97, 98, 99] = (12, true) ∧
    processLine [] [107, 59, 49, 50, 97, 98, 99] =
      some [⟨[107], 12, 12, 12, 1⟩] := by
  obtain ⟨b, d2, rfl⟩ : ∃ b d2, d = b :: d2 := by
    cases d with
    | nil => exact absurd rfl hne
    | cons b d2 => exact ⟨b, d2, rfl⟩
  have hb := hd b (List.mem_cons_self b d2)
  have hsign : ¬ (b = 43 ∨ b = 45) := by
    rintro (h | h) <;> omega
  have hkey : readFloatLoop ⟨0, 0, 0, 0, false, false, false⟩ (b :: (d2 ++ c :: g))
      = readFloatLoop ⟨0, 0, 0, 0, false, false, false⟩ (b :: d2) := by
    have := readFloatLoop_append_digits (b :: d2) hd
      ⟨0, 0, 0, 0, false, false, false⟩ (c :: g)
    simp only [List.cons_append] at this
    rw [this, readFloatLoop_stop_garbage _ c g hc2 hc1]
  have hsaw : (readFloatLoop ⟨0, 0, 0, 0, false, false, false⟩ (b :: d2)).sawdigits
      = true := readFloatLoop_sawdigits_of_digit _ b d2 hb
  have hrf : readFloat ((b :: d2) ++ c :: g) = readFloat (b :: d2) := by
    simp only [List.cons_append, readFloat, if_neg hsign, hkey]
  refine ⟨hrf, ?_, ?_, by decide, by decide⟩
  · simp only [readFloat, if_neg hsign, hsaw]
    simp
  · simp only [parseDecimal, hrf]

/-- C10 witness: the general statement at the digits 12 followed by abc. -/
theorem garbage_tail_witness :
    (([49, 50] : List Nat) ≠ []) ∧ (∀ b ∈ [49, 50], 48 ≤ b ∧ b ≤ 57) ∧
    ¬ (48 ≤ 97 ∧ 97 ≤ 57) ∧ ¬ (97 = 46) ∧
    readFloat ([49, 50] ++ 97 :: [98, 99]) = readFloat [49, 50] :=
  ⟨by decide, by decide, by decide, by decide,
    (garbage_tail_parses_numeric_head [49, 50] [98, 99] 97 (by decide) (by decide)
      (by decide) (by decide)).1⟩

/-- C7: for every input, the sequence returned by finalize is sorted
non-decreasingly under byte-wise ordinal comparison of the station keys;
byte-wise order puts the prefix Berlin strictly before Berlin-Mitte, as the
concrete two-station run shows. -/
theorem finalize_sorted_bytewise :
    (∀ stations : List StationResult,
      List.Sorted stationLe (finalize stations)) ∧
    bytesCompare [66, 101, 114, 108, 105, 110]
      [66, 101, 114, 108, 105, 110, 45, 77, 105, 116, 116, 101] = Ordering.lt ∧
    (finalize
      [⟨[66, 101, 114, 108, 105, 110, 45, 77, 105, 116, 116, 101], 1, 1, 1, 1⟩,
       ⟨[66, 101, 114, 108, 105, 110], 2, 2, 2, 1⟩]).map StationResult.station =
      [[66, 101, 114, 108, 105, 110],
       [66, 101, 114, 108, 105, 110, 45, 77, 105, 116, 116, 101]] := by
  refine ⟨fun stations => List.sorted_insertionSort stationLe _, by decide, ?_⟩
  decide

/-- C4: feeding any finite sequence of (key, reading) pairs through record
and finalizing yields, for every key that occurs in the sequence, a result
entry whose min is the least of that key's readings, whose max is the
greatest of them, and whose mean is the running sum of those readings
divided by their count. -/
theorem finalize_per_key_stats (pairs : List (List Nat × ℚ)) (k : List Nat)
    (hk : k ∈ pairs.map Prod.fst) :
    ∃ e ∈ finalize (processRecords pairs), e.station = k ∧
      e.min ∈ readingsOf k pairs ∧ (∀ x ∈ readingsOf k pairs, e.min ≤ x) ∧
      e.max ∈ readingsOf k pairs ∧ (∀ x ∈ readingsOf k pairs, x ≤ e.max) ∧
      e.mean = (readingsOf k pairs).sum / ((readingsOf k pairs).length : ℚ) := by
  have hne : readingsOf k pairs ≠ [] := by
    rcases List.mem_map.mp hk with ⟨p, hp, hpk⟩
    have hmem : p.2 ∈ readingsOf k pairs := by
      refine List.mem_map.mpr ⟨p, ?_, rfl⟩
      refine List.mem_filter.mpr ⟨hp, ?_⟩
      simp [hpk]
    intro hc
    rw [hc] at hmem
    cases hmem
  obtain ⟨r0, rest, hrs⟩ : ∃ r0 rest, readingsOf k pairs = r0 :: rest := by
    cases hrw : readingsOf k pairs with
    | nil => exact absurd hrw hne
    | cons a l => exact ⟨a, l, rfl⟩
  have hlook : lookupStation (processRecords pairs) k =
      some (rest.foldl recordUpdate ⟨k, r0, r0, r0, 1⟩) := by
    rw [show processRecords pairs = pairs.foldl (fun st p => record st p.1 p.2) []
        from rfl,
      lookup_foldl_record pairs [] k]
    rw [show lookupStation [] k = none from rfl, hrs, List.foldl_cons]
    exact foldl_aggStep_some k rest _
  have hchar := foldl_recordUpdate_char rest ⟨k, r0, r0, r0, 1⟩ (le_refl r0)
  have hmem : rest.foldl recordUpdate ⟨k, r0, r0, r0, 1⟩ ∈ processRecords pairs :=
    lookup_mem _ _ _ hlook
  refine ⟨finalizeEntry (rest.foldl recordUpdate ⟨k, r0, r0, r0, 1⟩), ?_, ?_, ?_,
    ?_, ?_, ?_, ?_⟩
  · unfold finalize
    exact ((List.perm_insertionSort stationLe _).mem_iff).mpr
      (List.mem_map_of_mem finalizeEntry hmem)
  · rw [hchar]
    rfl
  · rw [hchar, hrs]
    show rest.foldl min r0 ∈ r0 :: rest
    rcases foldl_min_mem rest r0 with h | h
    · rw [h]; exact List.mem_cons_self r0 rest
    · exact List.mem_cons_of_mem r0 h
  · rw [hchar, hrs]
    intro x hx
    rcases List.mem_cons.mp hx with hx | hx
    · exact hx ▸ foldl_min_le_start rest r0
    · exact foldl_min_le_mem rest r0 x hx
  · rw [hchar, hrs]
    show rest.foldl max r0 ∈ r0 :: rest
    rcases foldl_max_mem rest r0 with h | h
    · rw [h]; exact List.mem_cons_self r0 rest
    · exact List.mem_cons_of_mem r0 h
  · rw [hchar, hrs]
    intro x hx
    rcases List.mem_cons.mp hx with hx | hx
    · exact hx ▸ le_foldl_max_start rest r0
    · exact le_foldl_max_mem rest r0 x hx
  · rw [hchar, hrs]
    show (r0 + rest.sum) / ((1 + rest.length : Nat) : ℚ) =
      (r0 :: rest).sum / (((r0 :: rest).length : Nat) : ℚ)
    rw [List.sum_cons, List.length_cons]
    have hn : (1 + rest.length : Nat) = rest.length + 1 := by omega
    rw [hn]

/-- C4 witness: two readings 2 and 1 for the key a. -/
theorem finalize_per_key_stats_witness :
    ([97] ∈ ([([97], (2 : ℚ)), ([97], (1 : ℚ))]).map Prod.fst) ∧
    (∃ e ∈ finalize (processRecords [([97], (2 : ℚ)), ([97], (1 : ℚ))]),
      e.station = [97] ∧
      e.min ∈ readingsOf [97] [([97], (2 : ℚ)), ([97], (1 : ℚ))] ∧
      (∀ x ∈ readingsOf [97] [([97], (2 : ℚ)), ([97], (1 : ℚ))], e.min ≤ x) ∧
      e.max ∈ readingsOf [97] [([97], (2 : ℚ)), ([97], (1 : ℚ))] ∧
      (∀ x ∈ readingsOf [97] [([97], (2 : ℚ)), ([97], (1 : ℚ))], x ≤ e.max) ∧
      e.mean = (readingsOf [97] [([97], (2 : ℚ)), ([97], (1 : ℚ))]).sum /
        ((readingsOf [97] [([97], (2 : ℚ)), ([97], (1 : ℚ))]).length : ℚ)) :=
  ⟨by decide, finalize_per_key_stats [([97], (2 : ℚ)), ([97], (1 : ℚ))] [97]
    (by decide)⟩

end Go1brc
